import Mathlib

/-!
Shallow embedding of `src/grep_cmd.rs` and `src/json_cmd.rs` from the `rtk`
repository, together with theorems settling the frozen claims about the
specification.

Rust strings are modelled as lists of characters (`Chars`); byte indices and
byte lengths of the Rust code are modelled as character indices and lengths
(the two agree on ASCII input).  A Rust function that can panic is modelled as
returning `Option`, with `none` on the panicking executions.
-/

namespace Rtk

abbrev Chars := List Char

def lit (s : String) : Chars := s.data

/-- Models Rust `str::trim`: drop whitespace from both ends. -/
def trimChars (l : Chars) : Chars :=
  ((l.dropWhile Char.isWhitespace).reverse.dropWhile Char.isWhitespace).reverse

/-- Models Rust `str::to_lowercase` (character-wise simple lowercasing). -/
def lowerChars (l : Chars) : Chars := l.map Char.toLower

/-- Models Rust `str::find(&str)`: position of the first occurrence of `pat`
as a contiguous substring of the haystack (`none` if absent).  Rust returns a
byte offset; we return the corresponding character index. -/
def findSub (pat : Chars) : Chars → Option Nat
  | [] => if pat = [] then some 0 else none
  | x :: xs => if pat.isPrefixOf (x :: xs) then some 0 else (findSub pat xs).map (· + 1)

/-- Embedding of `clean_line` (src/grep_cmd.rs:100-141).

The `context_only` branch models `Regex::new(&format!("(?i).{{0,20}}{}.*",
regex::escape(pattern)))` followed by `re.find(trimmed)`: the pattern is
escaped so it matches literally, `Regex::new` always succeeds, and the
leftmost match of `.{0,20}<pattern>.*` on a newline-free line (lines come
from `stdout.lines()`) is the span starting at `max(0, p - 20)` (where `p` is
the first case-insensitive occurrence of the pattern) and running to the end
of the line.

`none` models a panic: `&trimmed[..max_len - 3]` underflows `usize` when
`max_len < 3` (reached when the trimmed line is longer than `max_len` and the
pattern does not occur in it). -/
def clean_line (line : Chars) (max_len : Nat) (context_only : Bool) (pattern : Chars) :
    Option Chars :=
  let trimmed := trimChars line
  let ctxResult : Option Chars :=
    if context_only then
      match findSub (lowerChars pattern) (lowerChars trimmed) with
      | some p =>
        let matched := trimmed.drop (p - 20)
        if matched.length ≤ max_len then some matched else none
      | none => none
    else none
  match ctxResult with
  | some m => some m
  | none =>
    if trimmed.length ≤ max_len then some trimmed
    else
      match findSub (lowerChars pattern) (lowerChars trimmed) with
      | some pos =>
        let start := pos - max_len / 3
        let stop := min (start + max_len) trimmed.length
        let start := if stop = trimmed.length then stop - max_len else start
        let slice := (trimmed.drop start).take (stop - start)
        if 0 < start ∧ stop < trimmed.length then some (lit "..." ++ slice ++ lit "...")
        else if 0 < start then some (lit "..." ++ slice)
        else some (slice ++ lit "...")
      | none =>
        if 3 ≤ max_len then some (trimmed.take (max_len - 3) ++ lit "...")
        else none

/-- Embedding of `compact_path` (src/grep_cmd.rs:143-159). -/
def compact_path (p : Chars) : Chars :=
  if p.length ≤ 50 then p
  else
    let parts := p.splitOn '/'
    if parts.length ≤ 3 then p
    else
      parts.getD 0 [] ++ lit "/.../" ++ parts.getD (parts.length - 2) []
        ++ lit "/" ++ parts.getD (parts.length - 1) []

/-! ### The match aggregator (`run`, src/grep_cmd.rs:7-98)

The external process invocation, the tracking side channel and the printing
are collaborators outside the summarization core; the embedding covers the
transformation from the search tool's stdout text to the rendered report
string.  `aggregate` returns `Option Chars`: `none` models a panic of
`clean_line` aborting the run. -/

/-- Decimal digits of a natural number, via Lean's `Nat` printing. -/
def natChars (n : Nat) : Chars := (toString n).data

/-- Split a character list at the first occurrence of `c`, if any. -/
def splitFirst (c : Char) : Chars → Option (Chars × Chars)
  | [] => none
  | x :: xs =>
    if x = c then some ([], xs)
    else (splitFirst c xs).map (fun p => (x :: p.1, p.2))

/-- Models Rust `line.splitn(3, ':').collect::<Vec<_>>()` (src/grep_cmd.rs:44):
at most three pieces, the last piece keeping any remaining `:`. -/
def splitnColon (l : Chars) : List Chars :=
  match splitFirst ':' l with
  | none => [l]
  | some (a, rest) =>
    match splitFirst ':' rest with
    | none => [a, rest]
    | some (b, rest2) => [a, b, rest2]

/-- Models `parts[1].parse::<usize>().unwrap_or(0)`: Rust's `usize` parser
accepts an optional leading `+` followed by one or more decimal digits, and
fails (hence `0`) on overflow past `usize::MAX`. -/
def parseUsize (l : Chars) : Nat :=
  let ds := if l.headD ' ' = '+' then l.tail else l
  if ds ≠ [] ∧ ds.all Char.isDigit then
    let v := ds.foldl (fun acc c => acc * 10 + (c.toNat - 48)) 0
    if v ≤ 18446744073709551615 then v else 0
  else 0

/-- Parsing of one stdout line into a `(file, line_num, content)` triple
(src/grep_cmd.rs:44-54); `none` models `continue` for lines with no `:`. -/
def parseLine (path : Chars) (line : Chars) : Option (Chars × Nat × Chars) :=
  match splitnColon line with
  | [a, b, c] => some (a, parseUsize b, c)
  | [a, b] => some (path, parseUsize a, b)
  | _ => none

/-- Models Rust `str::lines()`: split on `'\n'`, strip one `'\r'` from the end
of each piece that was terminated by `'\n'`, and drop a final empty piece. -/
def stripCr (l : Chars) : Chars :=
  if l.getLast? = some '\x0d' then l.dropLast else l

def linesAux (cur : Chars) : Chars → List Chars
  | [] => if cur = [] then [] else [cur]
  | c :: cs => if c = '\n' then stripCr cur :: linesAux [] cs else linesAux (cur ++ [c]) cs

def linesOf (s : Chars) : List Chars := linesAux [] s

/-- One grouped entry: a file name with its `(line_num, condensed content)`
matches in encounter order.  Models one entry of
`by_file: HashMap<String, Vec<(usize, String)>>` (src/grep_cmd.rs:40). -/
abbrev Groups := List (Chars × List (Nat × Chars))

/-- Models `by_file.entry(file).or_default().push((line_num, cleaned))`
(src/grep_cmd.rs:58). -/
def addMatch (file : Chars) (x : Nat × Chars) : Groups → Groups
  | [] => [(file, [x])]
  | (f, ms) :: rest =>
    if f = file then (f, ms ++ [x]) :: rest else (f, ms) :: addMatch file x rest

/-- Build the grouped matches from the condensed triples, in encounter order
(the `HashMap`'s own iteration order is arbitrary, but the keys are unique and
the groups are sorted by file name before rendering, so encounter order is an
equivalent representation). -/
def groupByFile : List (Chars × Nat × Chars) → Groups
  | [] => []
  | (f, ln, c) :: rest => addMatch f (ln, c) (groupByFile rest)

/-- Lexicographic comparison of character lists by code point, matching the
byte-wise `Ord` on Rust `String` for the UTF-8 encoding. -/
def leChars : Chars → Chars → Bool
  | [], _ => true
  | _ :: _, [] => false
  | x :: xs, y :: ys => if x = y then leChars xs ys else decide (x < y)

/-- Stable insertion into a list of groups sorted by file name. -/
def insertGroup (e : Chars × List (Nat × Chars)) : Groups → Groups
  | [] => [e]
  | f :: rest => if leChars e.1 f.1 then e :: f :: rest else f :: insertGroup e rest

/-- Models `files.sort_by_key(|(f, _)| *f)` (src/grep_cmd.rs:66): a stable
sort of the groups by file name. -/
def sortGroups : Groups → Groups
  | [] => []
  | e :: rest => insertGroup e (sortGroups rest)

/-- Right-align in a field of width 4, models the `{:>4}` format spec. -/
def padLeft4 (s : Chars) : Chars := List.replicate (4 - s.length) ' ' ++ s

/-- The inner per-file match loop (src/grep_cmd.rs:76-82): renders match
lines, incrementing the `shown` counter per rendered line and breaking the
moment it reaches `max_results`.  Called on `matches.iter().take(10)`. -/
def renderMatches (max_results : Nat) : List (Nat × Chars) → Chars → Nat → Chars × Nat
  | [], out, shown => (out, shown)
  | (line_num, content) :: rest, out, shown =>
    let out := out ++ lit "  " ++ padLeft4 (natChars line_num) ++ lit ": " ++ content ++ lit "\n"
    let shown := shown + 1
    if shown ≥ max_results then (out, shown)
    else renderMatches max_results rest out shown

/-- The body of one iteration of the outer file loop (src/grep_cmd.rs:68-88):
per-file header, up to 10 match lines (subject to the global cap), the
`+<remainder>` note when the file has more than 10 matches, and a blank
line. -/
def fileBlock (max_results : Nat) (file : Chars) (ms : List (Nat × Chars))
    (out : Chars) (shown : Nat) : Chars × Nat :=
  let out := out ++ lit "📄 " ++ compact_path file ++ lit " ("
    ++ natChars ms.length ++ lit "):\n"
  let r := renderMatches max_results (ms.take 10) out shown
  let out := r.1
  let shown := r.2
  let out :=
    if ms.length > 10 then out ++ lit "  +" ++ natChars (ms.length - 10) ++ lit "\n"
    else out
  (out ++ lit "\n", shown)

/-- The outer file loop (src/grep_cmd.rs:68-88): stops rendering files
entirely once `shown` has reached `max_results`. -/
def renderFiles (max_results : Nat) : Groups → Chars → Nat → Chars × Nat
  | [], out, shown => (out, shown)
  | (file, ms) :: rest, out, shown =>
    if shown ≥ max_results then (out, shown)
    else
      let r := fileBlock max_results file ms out shown
      renderFiles max_results rest r.1 r.2

/-- Condense every parsed match's content via `clean_line` (src/grep_cmd.rs:57);
`none` models a panic of `clean_line` aborting the whole run. -/
def condenseAll (max_line_len : Nat) (context_only : Bool) (pattern : Chars) :
    List (Chars × Nat × Chars) → Option (List (Chars × Nat × Chars))
  | [] => some []
  | (f, ln, content) :: rest => do
    let c ← clean_line content max_line_len context_only pattern
    let r ← condenseAll max_line_len context_only pattern rest
    some ((f, ln, c) :: r)

/-- Embedding of the report-producing part of `run` (src/grep_cmd.rs:29-94):
from the search tool's stdout text to the rendered report. -/
def aggregate (pattern path : Chars) (max_line_len max_results : Nat)
    (context_only : Bool) (stdout : Chars) : Option Chars :=
  if trimChars stdout = [] then some (lit "🔍 0 for '" ++ pattern ++ lit "'")
  else do
    let parsed := (linesOf stdout).filterMap (parseLine path)
    let cleaned ← condenseAll max_line_len context_only pattern parsed
    let total := cleaned.length
    let g := sortGroups (groupByFile cleaned)
    let header := lit "🔍 " ++ natChars total ++ lit " in " ++ natChars g.length ++ lit "F:\n\n"
    let r := renderFiles max_results g header 0
    let out := if total > r.2 then r.1 ++ lit "... +" ++ natChars (total - r.2) ++ lit "\n" else r.1
    some out

/-- Total number of matches held in a grouped-matches structure. -/
def totalOf (g : Groups) : Nat := (g.map (fun e => e.2.length)).sum

/-! ### The schema inferrer (`extract_schema`, src/json_cmd.rs:25-109)

JSON values are modelled after `serde_json::Value` (with `preserve_order`
off): objects are backed by a `BTreeMap`, so entry lists of real inputs have
unique keys and arrive key-sorted; the embedding nevertheless keeps the
explicit `keys.sort()` step of the source.  Numbers are modelled after
`serde_json`'s internal `N` enum: `PosInt(u64)` for non-negative integer
literals that fit `u64`, `NegInt(i64)` for negative integer literals that fit
`i64`, and `Float(f64)` for every other numeric literal (a literal with a
decimal point or exponent such as `3.0` or `1e2`, or an out-of-range integer
literal); the `Float` payload carries the float's numeric value as a
rational, which the code never inspects. -/

inductive JNumber where
  | posInt (n : Nat)
  | negInt (i : Int)
  | float (q : ℚ)
deriving DecidableEq

inductive Json where
  | null
  | bool (b : Bool)
  | num (n : JNumber)
  | str (s : String)
  | arr (elems : List Json)
  | obj (entries : List (String × Json))

/-- The invariants `serde_json` maintains for its number representation:
`PosInt` holds a `u64`, `NegInt` holds a negative `i64`. -/
def JNumber.wf : JNumber → Prop
  | .posInt n => n < 18446744073709551616
  | .negInt i => -9223372036854775808 ≤ i ∧ i < 0
  | .float _ => True

/-- Models `serde_json::Number::is_i64` (used at src/json_cmd.rs:36): true for
`PosInt` values not exceeding `i64::MAX` and for every `NegInt`, false for
every `Float`. -/
def JNumber.is_i64 : JNumber → Bool
  | .posInt n => n ≤ 9223372036854775807
  | .negInt _ => true
  | .float _ => false

/-- The numeric value of a JSON number, as a rational. -/
def JNumber.toRat : JNumber → ℚ
  | .posInt n => n
  | .negInt i => i
  | .float q => q

/-- The spec's reading of "exactly representable as a 64-bit integer": the
numeric value is an integer in the range of `i64`. -/
def i64Representable (n : JNumber) : Prop :=
  ∃ k : ℤ, -9223372036854775808 ≤ k ∧ k ≤ 9223372036854775807 ∧ (k : ℚ) = n.toRat

/-- Models the `is_simple` test (src/json_cmd.rs:85):
`matches!(val, Value::Null | Value::Bool(_) | Value::Number(_) | Value::String(_))`. -/
def Json.isSimple : Json → Bool
  | .null | .bool _ | .num _ | .str _ => true
  | _ => false

/-- Rust `str::trim` on Lean `String`s (char-level, as in `trimChars`). -/
def trimStr (s : String) : String := String.mk (trimChars s.data)

/-- Stable insertion into a key-sorted entry list, comparing keys the way
Rust `String: Ord` does (lexicographic by code point). -/
def insertEntry (e : String × Json) : List (String × Json) → List (String × Json)
  | [] => [e]
  | f :: rest => if leChars e.1.data f.1.data then e :: f :: rest else f :: insertEntry e rest

/-- Models `keys.sort()` (src/json_cmd.rs:77) as a stable sort of the entry
list by key; on real inputs (unique keys, iterated over a `BTreeMap`) sorting
the keys and looking each one up in the map is the same as sorting the
entries. -/
def sortEntries : List (String × Json) → List (String × Json)
  | [] => []
  | e :: rest => insertEntry e (sortEntries rest)

theorem sizeOf_insertEntry (e : String × Json) (l : List (String × Json)) :
    sizeOf (insertEntry e l) = 1 + sizeOf e + sizeOf l := by
  induction l with
  | nil => simp [insertEntry]
  | cons f rest ih =>
    simp only [insertEntry]
    split
    · simp
    · simp [ih]; omega

theorem sizeOf_sortEntries (l : List (String × Json)) :
    sizeOf (sortEntries l) = sizeOf l := by
  induction l with
  | nil => rfl
  | cons e rest ih => simp [sortEntries, sizeOf_insertEntry, ih]

/-- Models `"  ".repeat(depth)` (src/json_cmd.rs:26). -/
def indentStr (depth : Nat) : String := String.mk (List.replicate (2 * depth) ' ')

mutual

/-- Embedding of `extract_schema` (src/json_cmd.rs:25-109).  The object
branch is split into `objectLines` (the key loop, src/json_cmd.rs:79-103). -/
def extract_schema (value : Json) (depth max_depth : Nat) : String :=
  let indent := indentStr depth
  if depth > max_depth then indent ++ "..."
  else
    match value with
    | .null => indent ++ "null"
    | .bool _ => indent ++ "bool"
    | .num n => if n.is_i64 then indent ++ "int" else indent ++ "float"
    | .str s =>
      if s.length > 50 then indent ++ "string[" ++ toString s.length ++ "]"
      else if s = "" then indent ++ "string"
      else if "http".data.isPrefixOf s.data then indent ++ "url"
      else if s.data.contains '-' ∧ s.length = 10 then indent ++ "date?"
      else indent ++ "string"
    | .arr [] => indent ++ "[]"
    | .arr (v :: rest) =>
      let first_schema := extract_schema v (depth + 1) max_depth
      let trimmed := trimStr first_schema
      if rest.length + 1 = 1 then indent ++ "[\n" ++ first_schema ++ "\n" ++ indent ++ "]"
      else indent ++ "[" ++ trimmed ++ "] (" ++ toString (rest.length + 1) ++ ")"
    | .obj [] => indent ++ "\x7b\x7d"
    | .obj (e :: rest) =>
      let sorted := sortEntries (e :: rest)
      let lines := (indent ++ "\x7b") :: objectLines sorted 0 sorted.length depth max_depth
      String.intercalate "\n" (lines ++ [indent ++ "\x7d"])
termination_by sizeOf value
decreasing_by
  all_goals simp [sizeOf_sortEntries]
  all_goals omega

/-- The key loop of the object branch (src/json_cmd.rs:79-103): `i` is the
0-based index of the current key, `total` the full key count (`keys.len()`);
after processing a key with `i ≥ 15` the `... +N more keys` line is pushed
and the loop breaks. -/
def objectLines (l : List (String × Json)) (i total depth max_depth : Nat) : List String :=
  match l with
  | [] => []
  | (key, val) :: rest =>
    let indent := indentStr depth
    let val_schema := extract_schema val (depth + 1) max_depth
    let val_trimmed := trimStr val_schema
    let pushes :=
      if val.isSimple then
        if i < total - 1 then [indent ++ "  " ++ key ++ ": " ++ val_trimmed ++ ","]
        else [indent ++ "  " ++ key ++ ": " ++ val_trimmed]
      else [indent ++ "  " ++ key ++ ":", val_schema]
    if i ≥ 15 then pushes ++ [indent ++ "  ... +" ++ toString (total - i - 1) ++ " more keys"]
    else pushes ++ objectLines rest (i + 1) total depth max_depth
termination_by sizeOf l
decreasing_by
  all_goals simp
  all_goals omega

end

/-- The key loop without the 16-key cap, following the spec's words "For each
key in order: if the value is a simple kind inline it as `key: schema,`
(trailing comma on all but the last key); otherwise render `key:` on its own
line followed by the nested block."  Used as the reference point to state
which keys the capped loop (`objectLines`) actually lists. -/
def objectLinesAll (l : List (String × Json)) (i total depth max_depth : Nat) : List String :=
  match l with
  | [] => []
  | (key, val) :: rest =>
    let indent := indentStr depth
    let val_schema := extract_schema val (depth + 1) max_depth
    let val_trimmed := trimStr val_schema
    let pushes :=
      if val.isSimple then
        if i < total - 1 then [indent ++ "  " ++ key ++ ": " ++ val_trimmed ++ ","]
        else [indent ++ "  " ++ key ++ ": " ++ val_trimmed]
      else [indent ++ "  " ++ key ++ ":", val_schema]
    pushes ++ objectLinesAll rest (i + 1) total depth max_depth

/-! ### Claims -/

/-- C1 (counterexample).  The claim "clean_line returns a string of length at
most max_len" fails: for the line `abcXdefgh` with `max_len = 4` and pattern
`X`, the centered-window branch slices a window of width `max_len` and then
surrounds it with `...` on both sides, returning the 10-character string
`...cXde...`, which is longer than `max_len = 4`. -/
theorem clean_line_exceeds_max_len :
    clean_line (lit "abcXdefgh") 4 false (lit "X") = some (lit "...cXde...") ∧
      ¬ (lit "...cXde...").length ≤ 4 := by
  decide

/-- C1 (amended).  Whenever `clean_line` returns (does not panic), the result
has length at most `max_len + 6`: the context branch and the short-line branch
return at most `max_len` characters, the fallback branch exactly `max_len`,
and the centered-window branch a window of at most `max_len` characters plus
up to two three-character `...` markers. -/
theorem clean_line_length_le_max_len_add_six (line : Chars) (max_len : Nat)
    (context_only : Bool) (pattern : Chars) (s : Chars)
    (h : clean_line line max_len context_only pattern = some s) :
    s.length ≤ max_len + 6 := by
  have hdots : (lit "...").length = 3 := by decide
  simp only [clean_line] at h
  split at h
  case h_1 m heq =>
    -- context branch: returned only when its length is at most max_len
    cases h
    split at heq
    · split at heq
      · split at heq
        · rename_i hle
          cases heq
          omega
        · cases heq
      · cases heq
    · cases heq
  case h_2 heq =>
    clear heq
    split at h
    · -- short line returned unchanged
      rename_i hshort
      cases h
      omega
    · rename_i hlong
      split at h
      case h_1 pos hpos =>
        -- centered window: a slice of at most max_len characters plus up to
        -- two three-character markers
        set T := trimChars line with hT
        set start0 := pos - max_len / 3 with hs0
        set stop := min (start0 + max_len) T.length with hstop
        have hstople : stop ≤ start0 + max_len := min_le_left _ _
        set start1 := (if stop = T.length then stop - max_len else start0 : Nat) with hstart
        have hwidth : stop - start1 ≤ max_len := by
          rw [hstart]; split <;> omega
        have hslice : ((T.drop start1).take (stop - start1)).length ≤ max_len :=
          le_trans (List.length_take_le _ _) hwidth
        split at h
        · cases h
          simp only [List.length_append, hdots]
          omega
        · split at h
          · cases h
            simp only [List.length_append, hdots]
            omega
          · cases h
            simp only [List.length_append, hdots]
            omega
      case h_2 hpos =>
        -- fallback branch: max_len - 3 characters plus one marker
        split at h
        · rename_i hml
          cases h
          have htk := List.length_take_le (max_len - 3) (trimChars line)
          simp only [List.length_append, hdots]
          omega
        · exact Option.noConfusion h

/-- C1 (witness for the amended theorem): at the counterexample input the
bound `max_len + 6 = 10` is attained. -/
theorem clean_line_length_bound_witness :
    (lit "...cXde...").length ≤ 4 + 6 :=
  clean_line_length_le_max_len_add_six (lit "abcXdefgh") 4 false (lit "X")
    (lit "...cXde...") (by decide)

/-- C2.  The claim (and the spec) say `clean_line` must not panic when
`max_len < 3`; the code computes `&trimmed[..max_len - 3]`, whose `usize`
subtraction underflows there.  At the failing input (line `abcdef`, `max_len
= 2`, pattern `zzz` which does not occur), the embedding returns `none`,
which models that panic. -/
theorem clean_line_underflow_panics :
    clean_line (lit "abcdef") 2 false (lit "zzz") = none := by
  decide

/-! Counting lemmas for the aggregator. -/

theorem totalOf_addMatch (file : Chars) (x : Nat × Chars) (g : Groups) :
    totalOf (addMatch file x g) = totalOf g + 1 := by
  induction g with
  | nil => simp [totalOf, addMatch]
  | cons e rest ih =>
    obtain ⟨f, ms⟩ := e
    simp only [addMatch]
    split
    · simp [totalOf]; omega
    · simp [totalOf] at ih ⊢; omega

theorem totalOf_groupByFile (ms : List (Chars × Nat × Chars)) :
    totalOf (groupByFile ms) = ms.length := by
  induction ms with
  | nil => simp [totalOf, groupByFile]
  | cons m rest ih => simp [groupByFile, totalOf_addMatch, ih]

theorem totalOf_insertGroup (e : Chars × List (Nat × Chars)) (g : Groups) :
    totalOf (insertGroup e g) = e.2.length + totalOf g := by
  induction g with
  | nil => simp [totalOf, insertGroup]
  | cons f rest ih =>
    simp only [insertGroup]
    split
    · simp [totalOf]
    · simp [totalOf] at ih ⊢; omega

theorem totalOf_sortGroups (g : Groups) : totalOf (sortGroups g) = totalOf g := by
  induction g with
  | nil => rfl
  | cons e rest ih =>
    simp only [sortGroups]
    rw [totalOf_insertGroup, ih]
    simp [totalOf]

theorem renderMatches_shown_le (mr : Nat) (ms : List (Nat × Chars)) (out : Chars)
    (sh : Nat) (h : sh < mr) : (renderMatches mr ms out sh).2 ≤ mr := by
  induction ms generalizing out sh with
  | nil => exact Nat.le_of_lt h
  | cons m rest ih =>
    obtain ⟨ln, c⟩ := m
    simp only [renderMatches]
    split
    · omega
    · rename_i hge
      exact ih _ _ (by omega)

theorem renderMatches_shown_le_add (mr : Nat) (ms : List (Nat × Chars)) (out : Chars)
    (sh : Nat) : (renderMatches mr ms out sh).2 ≤ sh + ms.length := by
  induction ms generalizing out sh with
  | nil => simp [renderMatches]
  | cons m rest ih =>
    obtain ⟨ln, c⟩ := m
    simp only [renderMatches]
    split
    · dsimp only
      simp only [List.length_cons]
      omega
    · refine le_trans (ih _ _) (by simp only [List.length_cons]; omega)

theorem fileBlock_shown_le (mr : Nat) (f : Chars) (ms : List (Nat × Chars))
    (out : Chars) (sh : Nat) (h : sh < mr) : (fileBlock mr f ms out sh).2 ≤ mr := by
  simp only [fileBlock]
  exact renderMatches_shown_le _ _ _ _ h

theorem fileBlock_shown_le_add (mr : Nat) (f : Chars) (ms : List (Nat × Chars))
    (out : Chars) (sh : Nat) : (fileBlock mr f ms out sh).2 ≤ sh + ms.length := by
  simp only [fileBlock]
  have h1 := renderMatches_shown_le_add mr (ms.take 10)
    (out ++ lit "📄 " ++ compact_path f ++ lit " (" ++ natChars ms.length ++ lit "):\n") sh
  have h2 : (List.take 10 ms).length ≤ ms.length := by
    rw [List.length_take]; exact min_le_right _ _
  omega

theorem renderFiles_shown_le (mr : Nat) (g : Groups) (out : Chars) (sh : Nat)
    (h : sh ≤ mr) : (renderFiles mr g out sh).2 ≤ mr := by
  induction g generalizing out sh with
  | nil => exact h
  | cons e rest ih =>
    obtain ⟨f, ms⟩ := e
    simp only [renderFiles]
    split
    · exact h
    · rename_i hlt
      exact ih _ _ (fileBlock_shown_le _ _ _ _ _ (by omega))

theorem renderFiles_shown_le_total (mr : Nat) (g : Groups) (out : Chars) (sh : Nat) :
    (renderFiles mr g out sh).2 ≤ sh + totalOf g := by
  induction g generalizing out sh with
  | nil => simp [renderFiles, totalOf]
  | cons e rest ih =>
    obtain ⟨f, ms⟩ := e
    simp only [renderFiles]
    split
    · simp [totalOf]
    · refine le_trans (ih _ _) ?_
      have := fileBlock_shown_le_add mr f ms out sh
      simp [totalOf] at *
      omega

/-- C5.  For every list of (condensed) raw matches and every `max_results`:
the `shown` counter — incremented exactly once per rendered match line — never
exceeds `max_results`, and `shown` plus the value of the trailing `... +N`
line (the code appends `... +(total - shown)` exactly when `total > shown`;
the second summand is `0` when the line is absent) equals the total number of
parsed matches. -/
theorem shown_le_max_results_and_trailing_accounts_total
    (cleaned : List (Chars × Nat × Chars)) (mr : Nat) (header : Chars) :
    (renderFiles mr (sortGroups (groupByFile cleaned)) header 0).2 ≤ mr ∧
      (renderFiles mr (sortGroups (groupByFile cleaned)) header 0).2 +
        (if cleaned.length > (renderFiles mr (sortGroups (groupByFile cleaned)) header 0).2 then
          cleaned.length - (renderFiles mr (sortGroups (groupByFile cleaned)) header 0).2
        else 0) = cleaned.length := by
  have h1 := renderFiles_shown_le mr (sortGroups (groupByFile cleaned)) header 0 (Nat.zero_le _)
  have h2 := renderFiles_shown_le_total mr (sortGroups (groupByFile cleaned)) header 0
  rw [totalOf_sortGroups, totalOf_groupByFile] at h2
  refine ⟨h1, ?_⟩
  split <;> omega

/-- C6.  The block rendered for one file decomposes as: per-file header, the
capped match lines, then the `  +N` note exactly when the file's full match
count exceeds 10 — with `N = count - 10` computed from the full per-file
count — and a closing blank line.  The note does not depend on `max_results`
or on the running `shown` counter (both are universally quantified and absent
from the note), so the remainder is reported even when the global cap cut the
shown lines short. -/
theorem fileBlock_note_iff_more_than_ten (mr : Nat) (f : Chars)
    (ms : List (Nat × Chars)) (out : Chars) (sh : Nat) :
    fileBlock mr f ms out sh =
      ((renderMatches mr (ms.take 10)
          (out ++ lit "📄 " ++ compact_path f ++ lit " (" ++ natChars ms.length ++ lit "):\n")
          sh).1
        ++ (if 10 < ms.length then lit "  +" ++ natChars (ms.length - 10) ++ lit "\n" else [])
        ++ lit "\n",
      (renderMatches mr (ms.take 10)
          (out ++ lit "📄 " ++ compact_path f ++ lit " (" ++ natChars ms.length ++ lit "):\n")
          sh).2) := by
  simp only [fileBlock]
  split
  · simp [List.append_assoc]
  · simp

/-! Lemmas about `List.splitOn`, for the path compactor claims. -/

theorem splitOnP_sep_not_mem {α : Type} (p : α → Bool) (xs : List α) :
    ∀ y ∈ xs.splitOnP p, ∀ a ∈ y, p a = false := by
  induction xs with
  | nil =>
    intro y hy a ha
    simp only [List.splitOnP_nil, List.mem_singleton] at hy
    subst hy
    simp at ha
  | cons x xs ih =>
    intro y hy a ha
    rw [List.splitOnP_cons] at hy
    by_cases hpx : p x
    · rw [if_pos hpx] at hy
      rcases List.mem_cons.mp hy with h1 | h1
      · subst h1; simp at ha
      · exact ih y h1 a ha
    · rw [if_neg hpx] at hy
      rcases hsp : xs.splitOnP p with _ | ⟨z, zs⟩
      · exact absurd hsp (List.splitOnP_ne_nil p xs)
      · rw [hsp, List.modifyHead_cons] at hy
        rcases List.mem_cons.mp hy with h1 | h1
        · subst h1
          rcases List.mem_cons.mp ha with h2 | h2
          · subst h2; simpa using hpx
          · exact ih z (by rw [hsp]; exact List.mem_cons_self z zs) a h2
        · exact ih y (by rw [hsp]; exact List.mem_cons_of_mem z h1) a ha

theorem sep_not_mem_of_mem_splitOn (c : Char) (xs y : Chars)
    (hy : y ∈ xs.splitOn c) : c ∉ y := by
  intro hc
  have h := splitOnP_sep_not_mem (fun a => a == c) xs y hy c hc
  simp at h

/-- The pieces of a split, together with the separators between them, account
for the whole list: the piece lengths sum to the original length minus the
`(piece count - 1)` separators. -/
theorem splitOnP_sum_length {α : Type} (p : α → Bool) (xs : List α) :
    ((xs.splitOnP p).map List.length).sum + (xs.splitOnP p).length = xs.length + 1 := by
  induction xs with
  | nil => simp [List.splitOnP_nil]
  | cons x xs ih =>
    rw [List.splitOnP_cons]
    by_cases hpx : p x
    · rw [if_pos hpx]
      simp only [List.map_cons, List.sum_cons, List.length_cons, List.length_nil]
      omega
    · rw [if_neg hpx]
      rcases hsp : xs.splitOnP p with _ | ⟨z, zs⟩
      · exact absurd hsp (List.splitOnP_ne_nil p xs)
      · rw [hsp] at ih
        rw [List.modifyHead_cons]
        simp only [List.map_cons, List.sum_cons, List.length_cons] at ih ⊢
        omega

theorem splitOn_sum_length (c : Char) (xs : Chars) :
    ((xs.splitOn c).map List.length).sum + (xs.splitOn c).length = xs.length + 1 :=
  splitOnP_sum_length (fun a => a == c) xs

/-- Splitting the compacted form `first/.../second-to-last/last` on `/`
recovers exactly the four segments. -/
theorem splitOn_compact_form (p0 a b : Chars) (h0 : '/' ∉ p0) (ha : '/' ∉ a)
    (hb : '/' ∉ b) :
    (p0 ++ lit "/.../" ++ a ++ lit "/" ++ b).splitOn '/' = [p0, lit "...", a, b] := by
  have noSep : ∀ (l : Chars), '/' ∉ l → ∀ x ∈ l, ¬ ((fun u => u == '/') x = true) := by
    intro l hl x hx h
    simp only [beq_iff_eq] at h
    subst h
    exact hl hx
  have e : p0 ++ lit "/.../" ++ a ++ lit "/" ++ b
      = p0 ++ '/' :: (lit "..." ++ '/' :: (a ++ '/' :: b)) := by
    have e1 : lit "/.../" = '/' :: (lit "..." ++ ['/']) := rfl
    have e2 : lit "/" = ['/'] := rfl
    rw [e1, e2]
    simp [List.append_assoc]
  rw [e]
  show List.splitOnP (fun u => u == '/') _ = _
  rw [List.splitOnP_first _ _ (noSep p0 h0) '/' (by simp) _]
  rw [List.splitOnP_first _ _ (noSep (lit "...") (by decide)) '/' (by simp) _]
  rw [List.splitOnP_first _ _ (noSep a ha) '/' (by simp) _]
  rw [List.splitOnP_eq_single _ _ (noSep b hb)]

/-- The else-branch of `compact_path`, as an equation. -/
theorem compact_path_of_long (p : Chars) (h1 : ¬ p.length ≤ 50)
    (h2 : ¬ (p.splitOn '/').length ≤ 3) :
    compact_path p = (p.splitOn '/').getD 0 [] ++ lit "/.../"
      ++ (p.splitOn '/').getD ((p.splitOn '/').length - 2) []
      ++ lit "/" ++ (p.splitOn '/').getD ((p.splitOn '/').length - 1) [] := by
  simp [compact_path, h1, h2]

/-- A string already of the compacted form is a fixed point of
`compact_path`: it splits into exactly four segments, and recompacting keeps
the first and the last two. -/
theorem compact_form_fixed (p0 a b : Chars) (h0 : '/' ∉ p0) (ha : '/' ∉ a)
    (hb : '/' ∉ b) :
    compact_path (p0 ++ lit "/.../" ++ a ++ lit "/" ++ b) =
      p0 ++ lit "/.../" ++ a ++ lit "/" ++ b := by
  have hsplit := splitOn_compact_form p0 a b h0 ha hb
  by_cases hl : (p0 ++ lit "/.../" ++ a ++ lit "/" ++ b).length ≤ 50
  · unfold compact_path
    rw [if_pos hl]
  · rw [compact_path_of_long _ hl (by rw [hsplit]; simp)]
    rw [hsplit]
    rfl

/-- C3.  `compact_path` is idempotent: short paths and paths of at most three
segments are returned unchanged, and the compacted form of a long path splits
into exactly four `/`-separated segments whose recompaction is itself. -/
theorem compact_path_idempotent (p : Chars) :
    compact_path (compact_path p) = compact_path p := by
  by_cases h1 : p.length ≤ 50
  · have e1 : compact_path p = p := by simp [compact_path, h1]
    rw [e1]
    exact e1
  · by_cases h2 : (p.splitOn '/').length ≤ 3
    · have e1 : compact_path p = p := by simp [compact_path, h1, h2]
      rw [e1]
      exact e1
    · rw [compact_path_of_long p h1 h2]
      have hn : 4 ≤ (p.splitOn '/').length := by omega
      have hmem : ∀ i, i < (p.splitOn '/').length → '/' ∉ (p.splitOn '/').getD i [] := by
        intro i hi
        apply sep_not_mem_of_mem_splitOn '/' p
        rw [List.getD_eq_getElem _ _ hi]
        exact List.getElem_mem hi
      exact compact_form_fixed _ _ _ (hmem 0 (by omega)) (hmem _ (by omega)) (hmem _ (by omega))

/-- C4 (counterexample).  A long path whose middle segment is empty gets
longer under compaction: the 53-character path `aaaa…a//b/c` (48 `a`s) has 4
segments and compacts to `aaaa…a/.../b/c`, which has 56 characters. -/
theorem compact_path_increases_length :
    3 < ((lit "aaaaaaaaaaaaaaaaaaaaaaaaaaaaaaaaaaaaaaaaaaaaaaaa//b/c").splitOn '/').length ∧
      50 < (lit "aaaaaaaaaaaaaaaaaaaaaaaaaaaaaaaaaaaaaaaaaaaaaaaa//b/c").length ∧
      (lit "aaaaaaaaaaaaaaaaaaaaaaaaaaaaaaaaaaaaaaaaaaaaaaaa//b/c").length <
        (compact_path (lit "aaaaaaaaaaaaaaaaaaaaaaaaaaaaaaaaaaaaaaaaaaaaaaaa//b/c")).length := by
  decide

/-- Reading off the two last elements of a list decomposed as
`take n ++ [x, y]`. -/
theorem getD_take_append_two {α : Type} (l : List α) (x y d : α) (n : Nat)
    (hT : l.take n ++ [x, y] = l) (hTlen : (l.take n).length = n) :
    l.getD n d = x ∧ l.getD (n + 1) d = y := by
  constructor
  · conv_lhs => rw [← hT]
    rw [List.getD_append_right _ _ _ _ (by omega)]
    have h0 : n - (l.take n).length = 0 := by omega
    rw [h0]
    rfl
  · conv_lhs => rw [← hT]
    rw [List.getD_append_right _ _ _ _ (by omega)]
    have h1 : n + 1 - (l.take n).length = 1 := by omega
    rw [h1]
    rfl

/-- The first element of a nonempty list is among the first `n` taken, for
positive `n`. -/
theorem headD_mem_take {α : Type} (l : List α) (d : α) (n : Nat) (hn : 0 < n)
    (hl : 0 < l.length) : l.getD 0 d ∈ l.take n := by
  cases l with
  | nil => simp at hl
  | cons a t =>
    cases n with
    | zero => omega
    | succ m =>
      rw [List.take_succ_cons]
      exact List.mem_cons_self _ _

/-- C4 (amended).  For paths with more than 3 segments and length over 50,
compaction can add at most 3 characters: the kept segments bring 6 characters
of separators (`/.../` and `/`) while the dropped middle accounts for at
least the 3 separators of the original. -/
theorem compact_path_length_le_add_three (p : Chars)
    (hseg : 3 < (p.splitOn '/').length) (hlen : 50 < p.length) :
    (compact_path p).length ≤ p.length + 3 := by
  rw [compact_path_of_long p (by omega) (by omega)]
  have hn : 4 ≤ (p.splitOn '/').length := by omega
  have hdl : ((p.splitOn '/').drop ((p.splitOn '/').length - 2)).length = 2 := by
    rw [List.length_drop]
    omega
  obtain ⟨x, y, hxy⟩ := List.length_eq_two.mp hdl
  have htake : ((p.splitOn '/').take ((p.splitOn '/').length - 2)).length =
      (p.splitOn '/').length - 2 := by
    rw [List.length_take]
    omega
  have hTd : (p.splitOn '/').take ((p.splitOn '/').length - 2) ++ [x, y] = p.splitOn '/' := by
    rw [← hxy]
    exact List.take_append_drop _ _
  obtain ⟨hx, hy1⟩ := getD_take_append_two (p.splitOn '/') x y [] _ hTd htake
  have hy : (p.splitOn '/').getD ((p.splitOn '/').length - 1) [] = y := by
    have hi : (p.splitOn '/').length - 1 = (p.splitOn '/').length - 2 + 1 := by omega
    rw [hi]
    exact hy1
  have hp0 : (p.splitOn '/').getD 0 [] ∈ (p.splitOn '/').take ((p.splitOn '/').length - 2) :=
    headD_mem_take _ _ _ (by omega) (by omega)
  have hp0le := List.le_sum_of_mem (List.mem_map_of_mem List.length hp0)
  have hsum := splitOn_sum_length '/' p
  rw [← hTd] at hsum
  simp only [List.map_append, List.sum_append, List.length_append, List.map_cons,
    List.sum_cons, List.map_nil, List.sum_nil, List.length_cons, List.length_nil] at hsum
  have h5 : (lit "/.../").length = 5 := rfl
  have h1' : (lit "/").length = 1 := rfl
  rw [hx, hy]
  simp only [List.length_append, h5, h1']
  omega

/-- C4 (witness for the amended theorem): at the counterexample path the
bound is attained (53 + 3 = 56). -/
theorem compact_path_length_le_add_three_witness :
    (compact_path (lit "aaaaaaaaaaaaaaaaaaaaaaaaaaaaaaaaaaaaaaaaaaaaaaaa//b/c")).length ≤
      (lit "aaaaaaaaaaaaaaaaaaaaaaaaaaaaaaaaaaaaaaaaaaaaaaaa//b/c").length + 3 :=
  compact_path_length_le_add_three (lit "aaaaaaaaaaaaaaaaaaaaaaaaaaaaaaaaaaaaaaaaaaaaaaaa//b/c")
    (by decide) (by decide)

/-- C7 (counterexample).  Zero parsed matches does not imply the single
`🔍 0 for '<pattern>'` line: stdout consisting of the single line `x` (no
colon, so it parses to no match at all) is not blank, so the code renders the
header path instead, producing `🔍 0 in 0F:` — the claim's premise holds but
its conclusion fails. -/
theorem aggregate_zero_parsed_but_not_zero_line :
    (linesOf (lit "x")).filterMap (parseLine (lit "f")) = [] ∧
      aggregate (lit "p") (lit "f") 10 5 false (lit "x") = some (lit "🔍 0 in 0F:\n\n") ∧
      lit "🔍 0 in 0F:\n\n" ≠ lit "🔍 0 for 'p'" := by
  decide

/-- C7 (amended).  Whenever the search tool's stdout is blank (empty after
trimming), the rendered report is exactly the single line
`🔍 0 for '<pattern>'`, with no header and no file sections. -/
theorem aggregate_blank_stdout_zero_line (pattern path : Chars)
    (max_line_len max_results : Nat) (context_only : Bool) (stdout : Chars)
    (h : trimChars stdout = []) :
    aggregate pattern path max_line_len max_results context_only stdout =
      some (lit "🔍 0 for '" ++ pattern ++ lit "'") := by
  simp [aggregate, h]

/-- C7 (witness for the amended theorem): blank stdout at a concrete input. -/
theorem aggregate_blank_stdout_zero_line_witness :
    aggregate (lit "p") (lit "f") 10 5 false (lit " \n ") =
      some (lit "🔍 0 for '" ++ lit "p" ++ lit "'") :=
  aggregate_blank_stdout_zero_line (lit "p") (lit "f") 10 5 false (lit " \n ") (by decide)

/-! Helpers for the schema-inferrer claims. -/

theorem length_insertEntry (e : String × Json) (l : List (String × Json)) :
    (insertEntry e l).length = l.length + 1 := by
  induction l with
  | nil => rfl
  | cons f rest ih =>
    simp only [insertEntry]
    split
    · rfl
    · simp [ih]

theorem length_sortEntries (l : List (String × Json)) :
    (sortEntries l).length = l.length := by
  induction l with
  | nil => rfl
  | cons e rest ih => simp [sortEntries, length_insertEntry, ih]

/-- The capped key loop renders exactly the first `16 - i` remaining keys and
then, iff keys remain at index 15 (equivalently, iff at least `16 - i` keys
remain), one `... +(total - 16) more keys` line. -/
theorem objectLines_eq_take (l : List (String × Json)) (i total depth max_depth : Nat)
    (hi : i ≤ 15) :
    objectLines l i total depth max_depth =
      objectLinesAll (l.take (16 - i)) i total depth max_depth ++
        (if 16 - i ≤ l.length then
          [indentStr depth ++ "  ... +" ++ toString (total - 16) ++ " more keys"]
        else []) := by
  induction l generalizing i with
  | nil =>
    rw [if_neg (by simp; omega)]
    simp [objectLines, objectLinesAll]
  | cons e rest ih =>
    obtain ⟨key, val⟩ := e
    by_cases h15 : i ≥ 15
    · have hi15 : i = 15 := by omega
      subst hi15
      have h1 : 16 - 15 = 1 := by omega
      have h2 : total - 15 - 1 = total - 16 := by omega
      rw [h1, List.take_succ_cons, List.take_zero]
      rw [if_pos (by simp)]
      simp only [objectLines, objectLinesAll, if_pos h15, h2]
      simp
    · have hlt : i < 15 := by omega
      have htk : 16 - i = (16 - (i + 1)) + 1 := by omega
      rw [htk, List.take_succ_cons]
      simp only [objectLines, objectLinesAll, if_neg h15]
      rw [ih (i + 1) (by omega)]
      have hcond : (16 - (i + 1) + 1 ≤ ((key, val) :: rest).length) ↔
          (16 - (i + 1) ≤ rest.length) := by
        simp only [List.length_cons]
        omega
      by_cases hc : 16 - (i + 1) ≤ rest.length
      · rw [if_pos hc, if_pos (hcond.mpr hc)]
        simp [List.append_assoc]
      · rw [if_neg hc, if_neg (fun h => hc (hcond.mp h))]
        simp [List.append_assoc]

/-- C10.  The object rendering lists the first 16 keys (in sorted order) and
appends a `... +N more keys` line exactly when the object has at least 16
keys, with `N = key count - 16`; in particular an object with exactly 16 keys
lists all of them and then emits `... +0 more keys`. -/
theorem extract_schema_object_key_cap (entries : List (String × Json))
    (depth max_depth : Nat) (hd : depth ≤ max_depth) (hne : entries ≠ []) :
    extract_schema (Json.obj entries) depth max_depth =
      String.intercalate "\n"
        (((indentStr depth ++ "\x7b") ::
          (objectLinesAll ((sortEntries entries).take 16) 0 entries.length depth max_depth ++
            (if 16 ≤ entries.length then
              [indentStr depth ++ "  ... +" ++ toString (entries.length - 16) ++ " more keys"]
            else []))) ++ [indentStr depth ++ "\x7d"]) := by
  match entries, hne with
  | e :: rest, _ =>
    have hnd : ¬ depth > max_depth := by omega
    simp only [extract_schema, if_neg hnd]
    rw [objectLines_eq_take _ 0 _ _ _ (by omega)]
    rw [length_sortEntries]

set_option maxRecDepth 16384 in
/-- C10 (witness): a 16-key object (keys `a` through `p`, all null values)
lists all 16 keys and then the `... +0 more keys` line. -/
theorem extract_schema_object_key_cap_witness :
    extract_schema (Json.obj [("a", .null), ("b", .null), ("c", .null), ("d", .null),
        ("e", .null), ("f", .null), ("g", .null), ("h", .null), ("i", .null), ("j", .null),
        ("k", .null), ("l", .null), ("m", .null), ("n", .null), ("o", .null), ("p", .null)])
      0 1 =
      "\x7b\n  a: null,\n  b: null,\n  c: null,\n  d: null,\n  e: null,\n  f: null,\n  g: null,\n  h: null,\n  i: null,\n  j: null,\n  k: null,\n  l: null,\n  m: null,\n  n: null,\n  o: null,\n  p: null\n  ... +0 more keys\n\x7d" := by
  rw [extract_schema_object_key_cap _ 0 1 (by omega) (by simp)]
  simp [objectLinesAll, extract_schema, sortEntries, insertEntry, leChars, indentStr,
    trimStr, trimChars, Json.isSimple]
  all_goals decide

/-- C8 (counterexample).  The number value `Float(3.0)` — produced by parsing
the JSON literal `3.0` — has numeric value 3, which is exactly representable
as a 64-bit integer, yet the code labels it `float` (`is_i64` is false for
every `Float`), refuting the claimed equivalence at this input. -/
theorem extract_schema_integral_float_labeled_float :
    ¬ (extract_schema (Json.num (JNumber.float 3)) 0 5 = indentStr 0 ++ "int" ↔
        i64Representable (JNumber.float 3)) := by
  intro h
  have hrep : i64Representable (JNumber.float 3) := by
    refine ⟨3, by norm_num, by norm_num, by norm_num [JNumber.toRat]⟩
  have hlabel := h.mpr hrep
  have hfl : extract_schema (Json.num (JNumber.float 3)) 0 5 = indentStr 0 ++ "float" := by
    simp [extract_schema, JNumber.is_i64]
  rw [hfl] at hlabel
  have := congrArg String.data hlabel
  simp [indentStr] at this

/-- C8 (amended).  Within depth bounds and for well-formed serde numbers: a
number not stored as a float is labeled `int` iff its value is exactly
representable as a 64-bit signed integer, while every number stored as a
float (e.g. parsed from a literal with a decimal point or exponent) is
labeled `float`, even when its value is integral. -/
theorem extract_schema_int_iff_i64 (n : JNumber) (depth max_depth : Nat)
    (hwf : n.wf) (hd : depth ≤ max_depth) :
    ((∀ q, n ≠ JNumber.float q) →
      (extract_schema (Json.num n) depth max_depth = indentStr depth ++ "int" ↔
        i64Representable n)) ∧
    (∀ q, n = JNumber.float q →
      extract_schema (Json.num n) depth max_depth = indentStr depth ++ "float") := by
  have hnd : ¬ depth > max_depth := by omega
  have hne : indentStr depth ++ "float" ≠ indentStr depth ++ "int" := by
    intro h
    have h2 := congrArg String.length h
    have e1 : "float".length = 5 := rfl
    have e2 : "int".length = 3 := rfl
    rw [String.length_append, String.length_append, e1, e2] at h2
    omega
  cases n with
  | posInt v =>
    constructor
    · intro _
      by_cases hv : v ≤ 9223372036854775807
      · simp only [extract_schema, if_neg hnd, JNumber.is_i64, decide_eq_true_eq, if_pos hv]
        constructor
        · intro _
          exact ⟨v, by omega, by exact_mod_cast hv, by push_cast [JNumber.toRat]; ring⟩
        · intro _
          trivial
      · simp only [extract_schema, if_neg hnd, JNumber.is_i64, decide_eq_true_eq, if_neg hv]
        constructor
        · intro h
          exact absurd h hne
        · rintro ⟨k, hk1, hk2, hk3⟩
          simp only [JNumber.toRat] at hk3
          have : k = (v : ℤ) := by exact_mod_cast hk3
          omega
    · intro q h
      exact JNumber.noConfusion h
  | negInt i =>
    obtain ⟨hlo, hhi⟩ := hwf
    constructor
    · intro _
      simp only [extract_schema, if_neg hnd, JNumber.is_i64, if_pos rfl]
      constructor
      · intro _
        exact ⟨i, hlo, by omega, by push_cast [JNumber.toRat]; ring⟩
      · intro _
        trivial
    · intro q h
      exact JNumber.noConfusion h
  | float q =>
    constructor
    · intro h
      exact absurd rfl (h q)
    · intro q' _
      simp [extract_schema, if_neg hnd, JNumber.is_i64]

/-- C8 (witness for the amended theorem): the integer number 5 is labeled
`int`. -/
theorem extract_schema_int_iff_i64_witness :
    extract_schema (Json.num (JNumber.posInt 5)) 0 3 = indentStr 0 ++ "int" :=
  ((extract_schema_int_iff_i64 (JNumber.posInt 5) 0 3 (by norm_num [JNumber.wf]) (by omega)).1
    (fun q h => JNumber.noConfusion h)).mpr
    ⟨5, by norm_num, by norm_num, by norm_num [JNumber.toRat]⟩

/-- C9.  Array rendering samples only the first element: with two or more
elements the result is the single-line form `[<trimmed first schema>]
(<count>)`, and with exactly one element the multi-line bracketed block. -/
theorem extract_schema_array_samples_first (v : Json) (rest : List Json)
    (depth max_depth : Nat) (hd : depth ≤ max_depth) :
    (rest ≠ [] →
      extract_schema (Json.arr (v :: rest)) depth max_depth =
        indentStr depth ++ "[" ++ trimStr (extract_schema v (depth + 1) max_depth) ++ "] ("
          ++ toString (rest.length + 1) ++ ")") ∧
    extract_schema (Json.arr [v]) depth max_depth =
      indentStr depth ++ "[\n" ++ extract_schema v (depth + 1) max_depth ++ "\n"
        ++ indentStr depth ++ "]" := by
  have hnd : ¬ depth > max_depth := by omega
  constructor
  · intro hrest
    have hlen : ¬ rest.length + 1 = 1 := by
      have := List.length_pos.mpr hrest
      omega
    simp only [extract_schema, if_neg hnd, if_neg hlen]
  · simp only [extract_schema, if_neg hnd]
    rw [if_pos (by norm_num)]

/-- C9 (witness): a two-element array of nulls renders inline with the first
element's trimmed schema and the count. -/
theorem extract_schema_array_samples_first_witness :
    extract_schema (Json.arr [Json.null, Json.null]) 0 1 = "[null] (2)" := by
  have h := (extract_schema_array_samples_first Json.null [Json.null] 0 1 (by omega)).1
    (by simp)
  rw [h]
  have h2 : extract_schema Json.null 1 1 = "  null" := by
    simp [extract_schema, indentStr]
  rw [h2]
  decide

end Rtk

